import Mathlib

/-!
Verification of the bastion actor runtime core: the hierarchical actor-path
subsystem (`bastion/src/path.rs`) and the work-stealing executor's worker
module (`bastion-executor/src/worker.rs`), shallowly embedded in Lean.
-/

namespace Bastion

/-- A `BastionId` is rendered as an opaque string by `Display`; we model it by
its display form. -/
abbrev BastionId := String

/-- Embeds `BastionPathElement` from `bastion/src/path.rs`. -/
inductive BastionPathElement where
  | Supervisor (id : BastionId)
  | Children (id : BastionId)
  | Child (id : BastionId)
deriving DecidableEq

/-- Embeds `BastionPathElement::id`. -/
def BastionPathElement.id : BastionPathElement → BastionId
  | .Supervisor i => i
  | .Children i => i
  | .Child i => i

/-- Embeds `BastionPath` from `bastion/src/path.rs`: a parent chain of ids plus an
optional terminal element. -/
structure BastionPath where
  parent_chain : List BastionId
  thisEl : Option BastionPathElement
deriving DecidableEq

/-- Embeds `BastionPath::root`. -/
def BastionPath.root : BastionPath := ⟨[], none⟩

/-- Embeds `BastionPath::iter`: the parent chain followed by the id of `this`, if
present. -/
def BastionPath.iter (p : BastionPath) : List BastionId :=
  p.parent_chain ++ (p.thisEl.map BastionPathElement.id).toList

/-- Embeds `AppendError` from `bastion/src/path.rs`: carries the original path and the
offending element. -/
structure AppendError where
  path : BastionPath
  element : BastionPathElement
deriving DecidableEq

/-- Embeds `BastionPath::append`, translated arm by arm from the Rust `match`:
`Vec::push` on the new path's parent chain is appending at the end. -/
def BastionPath.append : BastionPath → BastionPathElement → Except AppendError BastionPath
  | ⟨chain, none⟩, .Supervisor i => .ok ⟨chain, some (.Supervisor i)⟩
  | ⟨chain, some (.Supervisor pid)⟩, .Supervisor i =>
      .ok ⟨chain ++ [pid], some (.Supervisor i)⟩
  | ⟨chain, cur⟩, .Supervisor i => .error ⟨⟨chain, cur⟩, .Supervisor i⟩
  | ⟨chain, some (.Supervisor pid)⟩, .Children i =>
      .ok ⟨chain ++ [pid], some (.Children i)⟩
  | ⟨chain, cur⟩, .Children i => .error ⟨⟨chain, cur⟩, .Children i⟩
  | ⟨chain, some (.Children pid)⟩, .Child i =>
      .ok ⟨chain ++ [pid], some (.Child i)⟩
  | ⟨chain, cur⟩, .Child i => .error ⟨⟨chain, cur⟩, .Child i⟩

/-- Embeds `impl fmt::Display for BastionPath`, which joins the formatted ids of `iter` with slashes after a leading slash, where
the joined ids are exactly those produced by `iter` (a `BastionId` displays as
its underlying string). -/
def BastionPath.display (p : BastionPath) : String :=
  "/" ++ String.intercalate "/" p.iter

/-- Embeds `impl fmt::Debug for BastionPathElement`. -/
def BastionPathElement.debugFmt : BastionPathElement → String
  | .Supervisor i => "supervisor#" ++ i
  | .Children i => "children#" ++ i
  | .Child i => "child#" ++ i

/-- Embeds `impl fmt::Debug for BastionPath`, translated arm by arm: `Supervisor` and
`Children` terminals annotate every parent as a supervisor; a `Child` terminal
annotates the parent at index `parent_len - 1` as children and the rest as
supervisors; the empty terminal prints `/`. -/
def BastionPath.debugFmt (p : BastionPath) : String :=
  match p.thisEl with
  | some (.Supervisor i) =>
      "/" ++ String.intercalate "/"
        (((p.parent_chain.map BastionPathElement.Supervisor)
            ++ [BastionPathElement.Supervisor i]).map BastionPathElement.debugFmt)
  | some (.Children i) =>
      "/" ++ String.intercalate "/"
        (((p.parent_chain.map BastionPathElement.Supervisor)
            ++ [BastionPathElement.Children i]).map BastionPathElement.debugFmt)
  | some (.Child i) =>
      let parentLen := p.parent_chain.length
      "/" ++ String.intercalate "/"
        (((p.parent_chain.enum.map (fun e =>
              if e.1 = parentLen - 1 then BastionPathElement.Children e.2
              else BastionPathElement.Supervisor e.2))
            ++ [BastionPathElement.Child i]).map BastionPathElement.debugFmt)
  | none => "/"

/-- The paths reachable from `root` by successful appends. -/
inductive Reachable : BastionPath → Prop
  | root : Reachable BastionPath.root
  | append (p q : BastionPath) (e : BastionPathElement) :
      Reachable p → BastionPath.append p e = .ok q → Reachable q

/-! ## Executor (`bastion-executor/src/worker.rs`)

Tasks are an opaque type `τ`; the steal primitives of the run queue and the
load-balancer lock are provided as an environment, so that `worker.rs` is
embedded over them. -/

/-- The `Steal` outcome of `run_queue.rs`. -/
inductive Steal (τ : Type) where
  | Empty
  | Success (t : τ)
  | Retry
deriving DecidableEq

/-- Embeds `Steal::is_retry`. -/
def Steal.is_retry : Steal τ → Bool
  | .Retry => true
  | _ => false

/-- Embeds `Steal::success`: the stolen task, if any. -/
def Steal.success : Steal τ → Option τ
  | .Success t => some t
  | _ => none

/-- Modelled from the spec: `Steal::or_else` of `run_queue.rs` (not under
src/) — a `Success` short-circuits; otherwise the second attempt decides,
except that a `Retry` on either side without a `Success` yields `Retry`. -/
def Steal.or_else : Steal τ → Steal τ → Steal τ
  | .Empty, r => r
  | .Success t, _ => .Success t
  | .Retry, r =>
      match r with
      | .Success t => .Success t
      | _ => .Retry

/-- Modelled from the spec: the `FromIterator` aggregation for `Steal` of
`run_queue.rs` (not under src/) — the first `Success` wins; if all steals
return `Empty` the aggregate is `Empty`; if any returned `Retry` (and none
succeeded) the aggregate is `Retry`. -/
def collectSteal : List (Steal τ) → Steal τ
  | [] => .Empty
  | .Success t :: _ => .Success t
  | .Retry :: rest =>
      match collectSteal rest with
      | .Success t => .Success t
      | _ => .Retry
  | .Empty :: rest => collectSteal rest

/-- The load-balancer snapshot (`Stats` of `load_balancer.rs`): per-worker run
queue depths and the mean depth. -/
structure Stats where
  smp_queues : List (Nat × Nat)
  mean_level : Nat
deriving DecidableEq

/-- Descending order on the depth component, as in
`core_vec.sort_by(|x, y| y.1.cmp(&x.1))`. -/
def depth_desc (a b : Nat × Nat) : Prop := b.2 ≤ a.2

instance : DecidableRel depth_desc := fun a b => Nat.decLe b.2 a.2

instance : IsTotal (Nat × Nat) depth_desc := ⟨fun a b => Nat.le_total b.2 a.2⟩

instance : IsTrans (Nat × Nat) depth_desc := ⟨fun _ _ _ hab hbc => Nat.le_trans hbc hab⟩

/-- One retry-loop iteration's environment: the outcome of `try_read` on the
stats lock, and the outcomes of the steal primitives (injector
`steal_batch_and_pop`, per-victim `steal_batch_and_pop_with_amount` and
default `steal_batch_and_pop`). -/
structure StealEnv (τ : Type) where
  lockResult : Option Stats
  injectorSteal : Steal τ
  stealWithAmount : Nat → Nat → Steal τ
  stealHalf : Nat → Steal τ

/-- The body of the `iter::repeat_with` closure in `affine_steal`: on a busy
stats lock, `Retry`; otherwise sort the per-worker depths descending, try the
injector first, then each victim — stealing `mean_level` tasks when the mean
is positive and the default half batch otherwise. -/
def stealIteration (env : StealEnv τ) : Steal τ :=
  match env.lockResult with
  | none => .Retry
  | some stats =>
      let core_vec := List.insertionSort depth_desc stats.smp_queues
      Steal.or_else env.injectorSteal
        (collectSteal (core_vec.map fun s =>
          if stats.mean_level > 0 then env.stealWithAmount s.1 stats.mean_level
          else env.stealHalf s.1))

/-- The `repeat_with ... find(|s| !s.is_retry())` driver: run iterations until
one is not `Retry`; `fuel` bounds the modelled unbounded loop (`none` = still
retrying). -/
def stealLoop (envs : Nat → StealEnv τ) : Nat → Option (Steal τ)
  | 0 => none
  | fuel + 1 =>
      let s := stealIteration (envs 0)
      if s.is_retry then stealLoop (fun k => envs (k + 1)) fuel else some s

/-- Embeds `affine_steal` from worker.rs: pop the local deque, else loop the steal
sequence and extract the stolen task (`and_then(|s| s.success())`). -/
def affine_steal (localPop : Option τ) (envs : Nat → StealEnv τ) (fuel : Nat) :
    Option (Option τ) :=
  match localPop with
  | some t => some (some t)
  | none => (stealLoop envs fuel).map Steal.success

/-- The state touched by the scheduler hook: the calling thread's thread-local
queue slot, the shared injector, and the count of `notify_one` calls on the
parking coordinator. -/
structure SchedulerState (τ : Type) where
  localSlot : Option (List τ)
  injector : List τ
  notified : Nat
deriving DecidableEq

/-- Embeds `schedule` from worker.rs: consult the thread-local queue slot — a worker
thread pushes the task onto its local deque, any other thread pushes it onto
the shared injector; then `sleepers.notify_one()` is called once. -/
def schedule (proc : τ) (st : SchedulerState τ) : SchedulerState τ :=
  let st1 : SchedulerState τ :=
    match st.localSlot with
    | none => ⟨none, st.injector ++ [proc], st.notified⟩
    | some q => ⟨some (q ++ [proc]), st.injector, st.notified⟩
  ⟨st1.localSlot, st1.injector, st1.notified + 1⟩

/-- Association-list lookup for the per-worker depth map. -/
def lookupAssoc : List (Nat × Nat) → Nat → Option Nat
  | [], _ => none
  | (k, v) :: rest, k' => if k = k' then some v else lookupAssoc rest k'

/-- Association-list update for the per-worker depth map (`HashMap::insert`). -/
def updateAssoc : List (Nat × Nat) → Nat → Nat → List (Nat × Nat)
  | [], k, v => [(k, v)]
  | (k', v') :: rest, k, v =>
      if k' = k then (k, v) :: rest else (k', v') :: updateAssoc rest k v

/-- Integer arithmetic mean of a list of queue depths. -/
def arithmeticMean (vals : List Nat) : Nat := vals.sum / vals.length

/-- Modelled from the spec: the stats update of `load_balancer.rs` (not under
src/) — storing a worker's depth recomputes `mean_level` as the arithmetic
mean of all per-worker entries, since the mean is recomputed whenever any
entry is updated. -/
def Stats.insertQueue (st : Stats) (id len : Nat) : Stats :=
  let q := updateAssoc st.smp_queues id len
  ⟨q, arithmeticMean (q.map Prod.snd)⟩

/-- Embeds `stats_generator` from worker.rs: loop until `try_write` on the stats lock
succeeds, then publish `local.worker_run_queue_size()` under the worker's id;
`locks k` tells whether attempt `k` acquires the lock, `fuel` bounds the
modelled unbounded loop (`none` = still retrying). -/
def stats_generator (id len : Nat) (st : Stats) : (Nat → Bool) → Nat → Option Stats
  | _, 0 => none
  | locks, fuel + 1 =>
      if locks 0 then some (st.insertQueue id len)
      else stats_generator id len st (fun k => locks (k + 1)) fuel

/-- Embeds `get_proc_stack` from worker.rs: apply `f` to the thread-local proc stack,
if one is installed. -/
def get_proc_stack (f : σ → ρ) (slot : Option σ) : Option ρ :=
  slot.map f

/-- Embeds `current` from worker.rs: clone the current proc stack, panicking — the
panic is modelled as `Except.error` carrying the panic message — when the
calling thread is not running a task. -/
def current (slot : Option σ) : Except String σ :=
  match get_proc_stack id slot with
  | some s => .ok s
  | none => .error "`proc::current()` called outside the context of the proc"

/-- Outcome of a task's `run`: normal return or panic unwinding. -/
inductive RunResult (α ε : Type) where
  | ok (a : α)
  | panicked (e : ε)
deriving DecidableEq

/-- Embeds `set_stack` from worker.rs: install the stack pointer in the thread-local
slot, run `f`, and clear the slot on every exit path — the `ResetStack` drop
guard resets the slot to null both on normal return and on panic unwinding.
Returns the run outcome together with the slot's final state. -/
def set_stack (stack : σ) (f : Option σ → RunResult α ε) (_slot : Option σ) :
    RunResult α ε × Option σ :=
  match f (some stack) with
  | .ok a => (.ok a, none)
  | .panicked e => (.panicked e, none)

/-- Concrete steal environments exercising `affine_steal_spec`: the first
iteration finds the stats lock busy, the second steals from the deepest
victim with the mean batch amount. -/
def demoEnvs : Nat → StealEnv Nat := fun n =>
  if n = 0 then ⟨none, .Empty, fun _ _ => .Empty, fun _ => .Empty⟩
  else
    ⟨some ⟨[(0, 5), (1, 2)], 3⟩, .Empty,
     fun id amt => if id = 0 ∧ amt = 3 then .Success 42 else .Empty,
     fun _ => .Empty⟩

end Bastion

namespace Bastion

/-- C1: the append automaton, one equation per cell of the transition table. -/
theorem append_automaton (chain : List BastionId) (i : BastionId) :
    (BastionPath.append ⟨chain, none⟩ (.Supervisor i)
        = .ok ⟨chain, some (.Supervisor i)⟩) ∧
    (BastionPath.append ⟨chain, none⟩ (.Children i)
        = .error ⟨⟨chain, none⟩, .Children i⟩) ∧
    (BastionPath.append ⟨chain, none⟩ (.Child i)
        = .error ⟨⟨chain, none⟩, .Child i⟩) ∧
    (∀ pid, BastionPath.append ⟨chain, some (.Supervisor pid)⟩ (.Supervisor i)
        = .ok ⟨chain ++ [pid], some (.Supervisor i)⟩) ∧
    (∀ pid, BastionPath.append ⟨chain, some (.Supervisor pid)⟩ (.Children i)
        = .ok ⟨chain ++ [pid], some (.Children i)⟩) ∧
    (∀ pid, BastionPath.append ⟨chain, some (.Supervisor pid)⟩ (.Child i)
        = .error ⟨⟨chain, some (.Supervisor pid)⟩, .Child i⟩) ∧
    (∀ pid, BastionPath.append ⟨chain, some (.Children pid)⟩ (.Supervisor i)
        = .error ⟨⟨chain, some (.Children pid)⟩, .Supervisor i⟩) ∧
    (∀ pid, BastionPath.append ⟨chain, some (.Children pid)⟩ (.Children i)
        = .error ⟨⟨chain, some (.Children pid)⟩, .Children i⟩) ∧
    (∀ pid, BastionPath.append ⟨chain, some (.Children pid)⟩ (.Child i)
        = .ok ⟨chain ++ [pid], some (.Child i)⟩) ∧
    (∀ pid, BastionPath.append ⟨chain, some (.Child pid)⟩ (.Supervisor i)
        = .error ⟨⟨chain, some (.Child pid)⟩, .Supervisor i⟩) ∧
    (∀ pid, BastionPath.append ⟨chain, some (.Child pid)⟩ (.Children i)
        = .error ⟨⟨chain, some (.Child pid)⟩, .Children i⟩) ∧
    (∀ pid, BastionPath.append ⟨chain, some (.Child pid)⟩ (.Child i)
        = .error ⟨⟨chain, some (.Child pid)⟩, .Child i⟩) := by
  refine ⟨rfl, rfl, rfl, ?_, ?_, ?_, ?_, ?_, ?_, ?_, ?_, ?_⟩ <;>
    intro pid <;> rfl

/-- C4: `append` is a pure function; on success the element sequence grows by
exactly one, and on rejection the error carries the unchanged input path and
the offending element. -/
theorem append_pure (p : BastionPath) (e : BastionPathElement) :
    (∀ q, p.append e = .ok q → q.iter.length = p.iter.length + 1) ∧
    (∀ err, p.append e = .error err → err.path = p ∧ err.element = e) := by
  obtain ⟨chain, cur⟩ := p
  constructor
  · intro q hq
    rcases cur with _ | el <;> cases e <;> try cases el
    all_goals simp only [BastionPath.append] at hq
    all_goals first
      | (injection hq with h; subst h; simp [BastionPath.iter])
      | injection hq
  · intro err herr
    rcases cur with _ | el <;> cases e <;> try cases el
    all_goals simp only [BastionPath.append] at herr
    all_goals first
      | (injection herr with h; subst h; exact ⟨rfl, rfl⟩)
      | injection herr

lemma intercalate_go_data (sep : String) :
    ∀ (l : List String) (acc : String),
      (String.intercalate.go acc sep l).data
        = acc.data ++ (l.map fun a => sep.data ++ a.data).flatten := by
  intro l
  induction l with
  | nil => intro acc; simp [String.intercalate.go]
  | cons a as ih =>
      intro acc
      simp [String.intercalate.go, ih, List.append_assoc]

lemma list_intercalate_cons (sep x : List Char) (xs : List (List Char)) :
    List.intercalate sep (x :: xs) = x ++ (xs.map fun b => sep ++ b).flatten := by
  induction xs generalizing x with
  | nil => simp [List.intercalate]
  | cons b bs ih =>
      have hstep : List.intercalate sep (x :: b :: bs)
          = x ++ sep ++ List.intercalate sep (b :: bs) := by
        simp [List.intercalate, List.intersperse_cons_cons, List.append_assoc]
      rw [hstep, ih b]
      simp [List.append_assoc]

lemma string_intercalate_data (sep : String) (l : List String) :
    (String.intercalate sep l).data = List.intercalate sep.data (l.map String.data) := by
  cases l with
  | nil => rfl
  | cons a as =>
      rw [String.intercalate, intercalate_go_data, List.map_cons, list_intercalate_cons]
      simp only [List.map_map]
      rfl

/-- C6: `iter` yields exactly the ids between the `/` separators of `Display`:
the display form is `/` followed by the ids joined with `/`; the root displays
as `/`; and splitting a non-empty path's display on `/` recovers the leading
empty segment followed exactly by the ids of `iter` (for ids not containing
`/`). -/
theorem display_iter (p : BastionPath) :
    (p.display = "/" ++ String.intercalate "/" p.iter) ∧
    (BastionPath.root.display = "/") ∧
    (p.iter ≠ [] → (∀ id ∈ p.iter, ('/' : Char) ∉ id.data) →
      p.display.data.splitOn '/' = [] :: p.iter.map String.data) := by
  refine ⟨rfl, rfl, ?_⟩
  intro hne hsl
  rcases hiter : p.iter with _ | ⟨id0, rest⟩
  · exact absurd hiter hne
  · have hdata : p.display.data
        = List.intercalate ['/'] ([] :: (id0 :: rest).map String.data) := by
      show ("/" ++ String.intercalate "/" p.iter).data = _
      rw [String.data_append, string_intercalate_data, hiter]
      rw [list_intercalate_cons ['/'] [], List.map_cons, list_intercalate_cons]
      simp
    rw [hdata]
    have := @List.splitOn_intercalate Char ([] :: (id0 :: rest).map String.data) _ '/'
      (by
        intro l hl
        rcases List.mem_cons.mp hl with h | h
        · simp [h]
        · obtain ⟨id, hid, rfl⟩ := List.mem_map.mp h
          exact hsl id (hiter ▸ hid))
      (by simp)
    simpa using this

/-- Witness for `display_iter` at the concrete path `/s1/c1/ch1`. -/
theorem display_iter_witness :
    (BastionPath.mk ["s1", "c1"] (some (.Child "ch1"))).display.data.splitOn '/'
      = [] :: (BastionPath.mk ["s1", "c1"] (some (.Child "ch1"))).iter.map String.data :=
  (display_iter _).2.2 (by decide) (by decide)

/-- Witness for `append_pure`: a successful and a rejected append at concrete
inputs. -/
theorem append_pure_witness :
    ((BastionPath.mk ["s", "c"] (some (.Child "ch"))).iter.length
        = (BastionPath.mk ["s"] (some (.Children "c"))).iter.length + 1) ∧
    ((AppendError.mk (BastionPath.mk [] none) (.Children "c")).path
        = BastionPath.mk [] none ∧
      (AppendError.mk (BastionPath.mk [] none) (.Children "c")).element
        = .Children "c") :=
  ⟨(append_pure (BastionPath.mk ["s"] (some (.Children "c"))) (.Child "ch")).1 _ rfl,
   (append_pure (BastionPath.mk [] none) (.Children "c")).2 _ rfl⟩

lemma enumFrom_annotate (ys : List BastionId) (y : BastionId) :
    ∀ k : Nat,
      (((ys ++ [y]).enumFrom k).map fun e =>
          if e.1 = k + ys.length then BastionPathElement.Children e.2
          else BastionPathElement.Supervisor e.2)
        = ys.map BastionPathElement.Supervisor ++ [BastionPathElement.Children y] := by
  induction ys with
  | nil => intro k; simp [List.enumFrom]
  | cons a as ih =>
      intro k
      have hne : ¬(k = k + (a :: as).length) := by simp
      have hk : k + (a :: as).length = (k + 1) + as.length := by
        simp [Nat.add_comm, Nat.add_assoc, Nat.add_left_comm]
      simp only [List.cons_append, List.enumFrom, List.map_cons, List.append_eq,
        if_neg hne]
      rw [hk, ih (k + 1)]

/-- C7: the Debug form is `/` for an empty terminal; a `Supervisor` or
`Children` terminal annotates every parent as `supervisor#`; a `Child` terminal
annotates the last parent as `children#` and the rest as `supervisor#`; checked
against the spec scenario `/supervisor#s1/children#c1/child#ch1`. -/
theorem debug_form (chain ys : List BastionId) (y i : BastionId) :
    ((BastionPath.mk chain none).debugFmt = "/") ∧
    ((BastionPath.mk chain (some (.Supervisor i))).debugFmt
      = "/" ++ String.intercalate "/"
          ((chain.map BastionPathElement.Supervisor
              ++ [BastionPathElement.Supervisor i]).map BastionPathElement.debugFmt)) ∧
    ((BastionPath.mk chain (some (.Children i))).debugFmt
      = "/" ++ String.intercalate "/"
          ((chain.map BastionPathElement.Supervisor
              ++ [BastionPathElement.Children i]).map BastionPathElement.debugFmt)) ∧
    ((BastionPath.mk (ys ++ [y]) (some (.Child i))).debugFmt
      = "/" ++ String.intercalate "/"
          ((ys.map BastionPathElement.Supervisor
              ++ [BastionPathElement.Children y, BastionPathElement.Child i]).map
            BastionPathElement.debugFmt)) ∧
    ((BastionPath.mk ["s1", "c1"] (some (.Child "ch1"))).debugFmt
      = "/supervisor#s1/children#c1/child#ch1") := by
  refine ⟨rfl, rfl, rfl, ?_, by decide⟩
  show "/" ++ String.intercalate "/" _ = _
  have harith : (ys ++ [y]).length - 1 = 0 + ys.length := by simp
  rw [List.enum, harith, enumFrom_annotate ys y 0]
  simp

/-- C10: every path reachable from `root` by successful appends satisfies the
shape invariant: an empty terminal implies an empty parent chain, and a
`Children` or `Child` terminal implies a non-empty parent chain, so the Debug
kind inference for a `Child` terminal never examines an empty parent chain. -/
theorem reachable_shape (p : BastionPath) (h : Reachable p) :
    (p.thisEl = none → p.parent_chain = []) ∧
    (∀ i, p.thisEl = some (.Children i) → p.parent_chain ≠ []) ∧
    (∀ i, p.thisEl = some (.Child i) → p.parent_chain ≠ []) := by
  induction h with
  | root =>
      exact ⟨fun _ => rfl, fun i hh => Option.noConfusion hh,
        fun i hh => Option.noConfusion hh⟩
  | append p q e hp heq ih =>
      obtain ⟨chain, cur⟩ := p
      rcases cur with _ | el <;> cases e <;> try cases el
      all_goals simp only [BastionPath.append] at heq
      all_goals first
        | (injection heq with h2; subst h2
           refine ⟨fun hh => ?_, fun i hh => ?_, fun i hh => ?_⟩ <;> simp_all)
        | injection heq

lemma or_else_collect (a : Steal τ) (l : List (Steal τ)) :
    Steal.or_else a (collectSteal l) = collectSteal (a :: l) := by
  cases a <;> rfl

lemma collectSteal_success_mem (l : List (Steal τ)) (t : τ)
    (h : collectSteal l = .Success t) : Steal.Success t ∈ l := by
  induction l with
  | nil => exact absurd h (by simp [collectSteal])
  | cons a l ih =>
      cases a with
      | Success u =>
          simp only [collectSteal] at h
          injection h with h
          subst h
          exact List.mem_cons_self _ _
      | Retry =>
          simp only [collectSteal] at h
          cases hc : collectSteal l with
          | Success u =>
              rw [hc] at h
              injection h with h
              subst h
              exact List.mem_cons_of_mem _ (ih hc)
          | Empty => rw [hc] at h; exact absurd h (by simp)
          | Retry => rw [hc] at h; exact absurd h (by simp)
      | Empty =>
          simp only [collectSteal] at h
          exact List.mem_cons_of_mem _ (ih h)

lemma stealLoop_shift (envs : Nat → StealEnv τ) (fuel : Nat)
    (h : stealIteration (envs 0) = .Retry) :
    stealLoop envs (fuel + 1) = stealLoop (fun k => envs (k + 1)) fuel := by
  simp [stealLoop, h, Steal.is_retry]

/-- C2: task acquisition. Local pop short-circuits; a busy stats read lock
yields `Retry`; with the lock held, the iteration is the steal aggregate of
the injector followed by the victims in descending depth order, using the
`mean_level` batch steal when the mean is positive and the default half-batch
steal otherwise; the aggregate takes the first `Success`, is `Empty` when all
steals are `Empty` and `Retry` when any steal retried without a success; the
caller loops past `Retry` aggregates and returns `Some(task)` on `Success`
and `None` on `Empty`. -/
theorem affine_steal_spec {τ : Type} :
    (∀ (t : τ) (envs : Nat → StealEnv τ) (fuel : Nat),
        affine_steal (some t) envs fuel = some (some t)) ∧
    (∀ env : StealEnv τ, env.lockResult = none → stealIteration env = .Retry) ∧
    (∀ (env : StealEnv τ) (stats : Stats), env.lockResult = some stats →
        stealIteration env
          = collectSteal (env.injectorSteal ::
              (List.insertionSort depth_desc stats.smp_queues).map fun s =>
                if stats.mean_level > 0 then env.stealWithAmount s.1 stats.mean_level
                else env.stealHalf s.1) ∧
        (List.insertionSort depth_desc stats.smp_queues).Sorted depth_desc ∧
        (List.insertionSort depth_desc stats.smp_queues).Perm stats.smp_queues) ∧
    (∀ l : List (Steal τ), (∀ s ∈ l, s = .Empty) → collectSteal l = .Empty) ∧
    (∀ l : List (Steal τ), .Retry ∈ l → (∀ t : τ, .Success t ∉ l) →
        collectSteal l = .Retry) ∧
    (∀ (l₁ l₂ : List (Steal τ)) (t : τ), (∀ u : τ, .Success u ∉ l₁) →
        collectSteal (l₁ ++ .Success t :: l₂) = .Success t) ∧
    (∀ (envs : Nat → StealEnv τ) (n fuel : Nat), n < fuel →
        (∀ i < n, stealIteration (envs i) = .Retry) →
        stealIteration (envs n) ≠ .Retry →
        affine_steal none envs fuel = some (Steal.success (stealIteration (envs n)))) ∧
    (∀ t : τ, (Steal.Success t).success = some t) ∧
    ((Steal.Empty : Steal τ).success = none) := by
  refine ⟨fun t envs fuel => rfl, ?_, ?_, ?_, ?_, ?_, ?_, fun t => rfl, rfl⟩
  · intro env h
    simp [stealIteration, h]
  · intro env stats h
    refine ⟨?_, List.sorted_insertionSort _ _, List.perm_insertionSort _ _⟩
    simp only [stealIteration, h]
    exact or_else_collect _ _
  · intro l h
    induction l with
    | nil => rfl
    | cons a l ih =>
        have ha := h a (List.mem_cons_self _ _)
        subst ha
        simp only [collectSteal]
        exact ih fun s hs => h s (List.mem_cons_of_mem _ hs)
  · intro l hr hs
    induction l with
    | nil => exact absurd hr (by simp)
    | cons a l ih =>
        cases a with
        | Success u => exact absurd (List.mem_cons_self _ _) (hs u)
        | Retry =>
            simp only [collectSteal]
            cases hc : collectSteal l with
            | Success u =>
                exact absurd (List.mem_cons_of_mem _ (collectSteal_success_mem l u hc))
                  (hs u)
            | Empty => rfl
            | Retry => rfl
        | Empty =>
            simp only [collectSteal]
            have hr' : Steal.Retry ∈ l := by
              rcases List.mem_cons.mp hr with h | h
              · exact absurd h.symm (by simp)
              · exact h
            exact ih hr' fun t ht => hs t (List.mem_cons_of_mem _ ht)
  · intro l₁ l₂ t h
    induction l₁ with
    | nil => rfl
    | cons a l₁ ih =>
        have ih' : collectSteal (l₁ ++ Steal.Success t :: l₂) = .Success t :=
          ih fun u hm => h u (List.mem_cons_of_mem _ hm)
        cases a with
        | Success u => exact absurd (List.mem_cons_self _ _) (h u)
        | Retry =>
            simp only [List.cons_append, collectSteal, List.append_eq, ih']
        | Empty =>
            simp only [List.cons_append, collectSteal, List.append_eq, ih']
  · intro envs n fuel hlt hretry hlast
    induction n generalizing envs fuel with
    | zero =>
        obtain ⟨m, rfl⟩ : ∃ m, fuel = m + 1 :=
          ⟨fuel - 1, by omega⟩
        have hfalse : (stealIteration (envs 0)).is_retry = false := by
          cases hs : stealIteration (envs 0) <;> simp [Steal.is_retry] <;>
            exact absurd hs hlast
        simp [affine_steal, stealLoop, hfalse]
    | succ n ih =>
        obtain ⟨m, rfl⟩ : ∃ m, fuel = m + 1 :=
          ⟨fuel - 1, by omega⟩
        have h0 : stealIteration (envs 0) = .Retry := hretry 0 (Nat.succ_pos n)
        have hstep := stealLoop_shift envs m h0
        have := ih (fun k => envs (k + 1)) m (by omega)
          (fun i hi => hretry (i + 1) (by omega)) hlast
        simpa [affine_steal, hstep] using this

/-- Witness for `affine_steal_spec`: the loop retries past the busy lock and
returns the task stolen in the second iteration. -/
theorem affine_steal_spec_witness :
    affine_steal (none : Option Nat) demoEnvs 5 = some (some 42) := by
  have h := (@affine_steal_spec Nat).2.2.2.2.2.2.1 demoEnvs 1 5 (by decide)
    (by decide) (by decide)
  rw [h]
  decide

/-- C3: the scheduler hook pushes onto the calling thread's local deque when
the thread-local queue slot is occupied and onto the shared injector
otherwise, and notifies the parking coordinator exactly once either way. -/
theorem schedule_spec (proc : τ) (st : SchedulerState τ) :
    (∀ q, st.localSlot = some q →
        schedule proc st = ⟨some (q ++ [proc]), st.injector, st.notified + 1⟩) ∧
    (st.localSlot = none →
        schedule proc st = ⟨none, st.injector ++ [proc], st.notified + 1⟩) ∧
    ((schedule proc st).notified = st.notified + 1) := by
  obtain ⟨slot, inj, n⟩ := st
  refine ⟨?_, ?_, ?_⟩
  · rintro q rfl
    rfl
  · rintro rfl
    rfl
  · rcases slot with _ | q <;> rfl

/-- Witness for `schedule_spec`: a worker thread's push lands on its local
deque, a foreign thread's push lands on the injector; both notify once. -/
theorem schedule_spec_witness :
    schedule 7 (⟨some [1], [2], 0⟩ : SchedulerState Nat) = ⟨some [1, 7], [2], 1⟩ ∧
    schedule 7 (⟨none, [2], 0⟩ : SchedulerState Nat) = ⟨none, [2, 7], 1⟩ :=
  ⟨(schedule_spec 7 ⟨some [1], [2], 0⟩).1 [1] rfl,
   (schedule_spec 7 ⟨none, [2], 0⟩).2.1 rfl⟩

lemma lookup_updateAssoc (l : List (Nat × Nat)) (id len : Nat) :
    lookupAssoc (updateAssoc l id len) id = some len := by
  induction l with
  | nil => simp [updateAssoc, lookupAssoc]
  | cons a rest ih =>
      obtain ⟨k, v⟩ := a
      by_cases hk : k = id
      · subst hk
        simp [updateAssoc, lookupAssoc]
      · simp [updateAssoc, lookupAssoc, hk, ih]

/-- C5: publishing the depth retries until the write lock is acquired (no
result while every attempt fails), then stores the worker's local queue
length under its id, and the recomputed `mean_level` equals the arithmetic
mean of the per-worker values after the write. -/
theorem stats_generator_spec (id len : Nat) (st : Stats) (locks : Nat → Bool) :
    (∀ fuel, (∀ k < fuel, locks k = false) →
        stats_generator id len st locks fuel = none) ∧
    (∀ n fuel, n < fuel → (∀ k < n, locks k = false) → locks n = true →
        stats_generator id len st locks fuel = some (st.insertQueue id len)) ∧
    (lookupAssoc (st.insertQueue id len).smp_queues id = some len) ∧
    ((st.insertQueue id len).mean_level
        = arithmeticMean ((st.insertQueue id len).smp_queues.map Prod.snd)) := by
  refine ⟨?_, ?_, lookup_updateAssoc _ _ _, rfl⟩
  · intro fuel
    induction fuel generalizing locks with
    | zero => intro _; rfl
    | succ m ih =>
        intro h
        have h0 : locks 0 = false := h 0 (Nat.succ_pos m)
        simp only [stats_generator, h0, Bool.false_eq_true, if_false]
        exact ih _ fun k hk => h (k + 1) (by omega)
  · intro n fuel hlt hbefore hn
    induction n generalizing locks fuel with
    | zero =>
        obtain ⟨m, rfl⟩ : ∃ m, fuel = m + 1 := ⟨fuel - 1, by omega⟩
        simp [stats_generator, hn]
    | succ n ih =>
        obtain ⟨m, rfl⟩ : ∃ m, fuel = m + 1 := ⟨fuel - 1, by omega⟩
        have h0 : locks 0 = false := hbefore 0 (Nat.succ_pos n)
        simp only [stats_generator, h0, Bool.false_eq_true, if_false]
        exact ih _ m (by omega) (fun k hk => hbefore (k + 1) (by omega)) hn

/-- Witness for `stats_generator_spec`: the lock is acquired on the third
attempt and worker 1's depth 4 is published, with the mean recomputed. -/
theorem stats_generator_spec_witness :
    stats_generator 1 4 ⟨[(0, 2), (1, 9)], 5⟩ (fun k => k == 2) 5
      = some ((Stats.mk [(0, 2), (1, 9)] 5).insertQueue 1 4) ∧
    lookupAssoc ((Stats.mk [(0, 2), (1, 9)] 5).insertQueue 1 4).smp_queues 1
      = some 4 :=
  ⟨(stats_generator_spec 1 4 ⟨[(0, 2), (1, 9)], 5⟩ (fun k => k == 2)).2.1 2 5
      (by decide) (by decide) (by decide),
   (stats_generator_spec 1 4 ⟨[(0, 2), (1, 9)], 5⟩ (fun k => k == 2)).2.2.1⟩

/-- C8: `current` returns a clone of the installed proc stack when the
thread-local slot is occupied, and signals the programmer error — the panic of
the source's `expect`, modelled as `Except.error` with the panic message —
when the calling thread is not running a task. -/
theorem current_spec (slot : Option σ) :
    (∀ s, slot = some s → current slot = .ok s) ∧
    (slot = none →
        current slot
          = .error "`proc::current()` called outside the context of the proc") := by
  constructor
  · rintro s rfl
    rfl
  · rintro rfl
    rfl

/-- Witness for `current_spec` inside and outside a task context. -/
theorem current_spec_witness :
    current (some 5) = Except.ok 5 ∧
    current (none : Option Nat)
      = .error "`proc::current()` called outside the context of the proc" :=
  ⟨(current_spec (some 5)).1 5 rfl, (current_spec none).2 rfl⟩

/-- C9: during `run` the thread-local slot holds the task's stack pointer
(`f` observes `some stack`); on every exit path — normal return or panic
unwinding — the slot is reset to null, so outside a `run` call the slot is
empty regardless of the run's outcome. -/
theorem set_stack_spec (stack : σ) (f : Option σ → RunResult α ε) (slot : Option σ) :
    ((set_stack stack f slot).2 = none) ∧
    ((set_stack stack f slot).1 = f (some stack)) ∧
    (∀ a, f (some stack) = .ok a → set_stack stack f slot = (.ok a, none)) ∧
    (∀ e, f (some stack) = .panicked e → set_stack stack f slot = (.panicked e, none)) := by
  refine ⟨?_, ?_, ?_, ?_⟩ <;> cases h : f (some stack) <;> simp [set_stack, h]

/-- Witness for `set_stack_spec`: the slot is cleared both after a normal
return and after a panic. -/
theorem set_stack_spec_witness :
    set_stack 3 (fun s => (RunResult.ok (s == some 3) : RunResult Bool String))
        (some 0)
      = (.ok true, none) ∧
    set_stack 3 (fun _ => (RunResult.panicked "boom" : RunResult Nat String))
        (some 0)
      = (.panicked "boom", none) := by
  constructor
  · have h := (set_stack_spec 3
        (fun s => (RunResult.ok (s == some 3) : RunResult Bool String)) (some 0)).2.2.1
        ((some 3 : Option Nat) == some 3) rfl
    simpa using h
  · exact (set_stack_spec 3 (fun _ => (RunResult.panicked "boom" : RunResult Nat String))
      (some 0)).2.2.2 "boom" rfl

/-- Witness for `reachable_shape` at the concrete reachable path
`/supervisor#s/children#c/child#ch`. -/
theorem reachable_shape_witness :
    (BastionPath.mk ["s", "c"] (some (.Child "ch"))).parent_chain ≠ [] :=
  (reachable_shape _ (Reachable.append
      (BastionPath.mk ["s"] (some (.Children "c")))
      (BastionPath.mk ["s", "c"] (some (.Child "ch"))) (.Child "ch")
      (Reachable.append
        (BastionPath.mk [] (some (.Supervisor "s")))
        (BastionPath.mk ["s"] (some (.Children "c"))) (.Children "c")
        (Reachable.append BastionPath.root
          (BastionPath.mk [] (some (.Supervisor "s"))) (.Supervisor "s")
          Reachable.root rfl) rfl) rfl)).2.2 "ch" rfl

end Bastion
